import Mathlib

/-!
Verification of the paper-search-tool repository's core text algorithms.

Shallow embedding of src/data_extractor.py and src/excel_writer.py.
Strings are modelled as `List Char`; Python `str.lower` is modelled
character-wise by `Char.toLower` (length preserving, faithful on ASCII);
Python `str.strip` is modelled by dropping whitespace characters from both
ends.  Fallible Python code (uncaught exceptions) is modelled with `Except`.
-/

/-- Model of Python `str.lower`, applied character-wise. -/
def pyLower (s : List Char) : List Char := s.map Char.toLower

/-- Model of the Python whitespace test used by `str.strip`. -/
def pyIsSpace (c : Char) : Bool := c.isWhitespace

/-- Model of Python `str.strip()`: remove leading and trailing whitespace. -/
def pyStrip (s : List Char) : List Char :=
  ((s.dropWhile pyIsSpace).reverse.dropWhile pyIsSpace).reverse

/-- Model of Python `str.zfill(w)`: left-pad with zeros to width `w`,
keeping a leading sign character in front of the padding. -/
def pyZfill (s : List Char) (w : Nat) : List Char :=
  if w ≤ s.length then s
  else
    match s with
    | c :: rest =>
      if c = '+' ∨ c = '-' then c :: (List.replicate (w - s.length) '0' ++ rest)
      else List.replicate (w - s.length) '0' ++ s
    | [] => List.replicate w '0'

/-- Search step for `pyFind`: try positions `i`, `i+1`, ... (`fuel` many). -/
def pyFindAux (hay needle : List Char) (i : Nat) : Nat → Option Nat
  | 0 => none
  | fuel + 1 =>
    if needle.isPrefixOf (hay.drop i) then some i
    else pyFindAux hay needle (i + 1) fuel

/-- Model of Python `hay.find(needle, start)`: the least position `p ≥ start`
at which `needle` occurs in `hay` (`none` models the return value `-1`). -/
def pyFind (hay needle : List Char) (start : Nat) : Option Nat :=
  pyFindAux hay needle start (hay.length + 1 - start)

/-- Model of Python `needle in hay` substring containment. -/
def pyContains (hay needle : List Char) : Bool :=
  (pyFind hay needle 0).isSome

/-!  ## Mixed-Content Flattener (src/data_extractor.py, get_full_text)  -/

/-- Model of an `xml.etree` element as seen by `get_full_text`:
optional leading `text`, ordered children, optional `tail` text
(the tail is read by the parent's loop). -/
inductive MarkupNode where
  | node (text : Option String) (children : List MarkupNode) (tail : Option String)

/-- The `tail` attribute of a node. -/
def MarkupNode.tailText : MarkupNode → Option String
  | .node _ _ t => t

mutual

/-- Model of get_full_text(element) from src/data_extractor.py:
`element.text or ""`, then for each child the recursive result followed by
`child.tail` when truthy, and finally `.strip()` of the accumulated text.
Note the strip is applied at every recursion level. -/
def get_full_text : MarkupNode → List Char
  | .node text children _ =>
    pyStrip ((text.getD "").data ++ get_full_text_children children)

/-- The `for child in element` accumulation loop of `get_full_text`. -/
def get_full_text_children : List MarkupNode → List Char
  | [] => []
  | c :: rest =>
    get_full_text c ++ (c.tailText.getD "").data ++ get_full_text_children rest

end

mutual

/-- Modelled from the spec claim's words, for comparison with the source:
the raw depth-first concatenation `node.text ++ (flatten child ++ child.tail)*`
with no trimming anywhere (the claim asserts only a final trim is applied). -/
def rawFlatten : MarkupNode → List Char
  | .node text children _ => (text.getD "").data ++ rawFlattenChildren children

/-- Child loop of `rawFlatten`. -/
def rawFlattenChildren : List MarkupNode → List Char
  | [] => []
  | c :: rest =>
    rawFlatten c ++ (c.tailText.getD "").data ++ rawFlattenChildren rest

end

/-!  ## Record extraction (src/data_extractor.py, extract_paper_info)

An element's text content, where it is only consumed through `findtext`,
is modelled as the `findtext` result: `none` when the sub-element is absent,
`some s` when it is present with effective text `s`.  Elements whose `.text`
attribute is read directly (Journal, PMID) are modelled as
`Option (Option String)`: presence of the element, then its `.text`,
which Python may give as `None`. -/

/-- One `Author` element: `findtext` results for LastName / ForeName. -/
structure AuthorElem where
  lastName : Option String
  foreName : Option String

/-- The `PubDate` element: `findtext` results for Year / Month / Day. -/
structure PubDateElem where
  year : Option String
  month : Option String
  day : Option String

/-- One `PubmedArticle` element, as read by `extract_paper_info`:
each field is the result of the corresponding `find` / `findall` call. -/
structure ParsedArticle where
  title : Option MarkupNode
  journal : Option (Option String)
  pubDate : Option PubDateElem
  authors : List AuthorElem
  abstract : Option (List MarkupNode)
  pmid : Option (Option String)

/-- The output dictionary built per article (string values;
`Journal` may hold Python `None`, hence `Option String`). -/
structure PaperInfo where
  Title : String
  Journal : Option String
  PublishedDate : String
  Authors : String
  Abstract : String
  URL : String
deriving DecidableEq, Repr

/-- The author loop: collect `"LastName, ForeName"` for each author whose
last name is truthy (non-empty). -/
def authorEntries : List AuthorElem → List String
  | [] => []
  | au :: rest =>
    if au.lastName.getD "" ≠ "" then
      (au.lastName.getD "" ++ ", " ++ au.foreName.getD "") :: authorEntries rest
    else authorEntries rest

/-- Abstract extraction (src/data_extractor.py lines 60-68): if the
`Abstract` element exists, flatten every `AbstractText` descendant and join
with a single space; otherwise the sentinel `"N/A"`. -/
def extractAbstractField (a : ParsedArticle) : String :=
  match a.abstract with
  | some parts =>
    String.intercalate " " (parts.map (fun p => String.mk (get_full_text p)))
  | none => "N/A"

/-- Per-article body of `extract_paper_info`.  When the article has no
`PubDate` element, the source evaluates `pub_date.findtext(...)` on `None`
and raises `AttributeError` (uncaught: the surrounding handler only catches
`ET.ParseError`); this is modelled as `Except.error`. -/
def extractArticle (a : ParsedArticle) : Except String PaperInfo :=
  match a.pubDate with
  | none => .error "AttributeError: NoneType object has no attribute findtext"
  | some pd =>
    .ok
      { Title := match a.title with
          | some t => String.mk (get_full_text t)
          | none => "N/A"
        Journal := match a.journal with
          | some t => t
          | none => some "N/A"
        PublishedDate :=
          pd.year.getD "N/A" ++ "-"
            ++ String.mk (pyZfill (pd.month.getD "01").data 2) ++ "-"
            ++ String.mk (pyZfill (pd.day.getD "01").data 2)
        Authors :=
          if authorEntries a.authors = [] then "N/A"
          else String.intercalate ", " (authorEntries a.authors)
        Abstract := extractAbstractField a
        URL := match a.pmid with
          | some t =>
            "https://pubmed.ncbi.nlm.nih.gov/"
              ++ (match t with | some s => s | none => "None") ++ "/"
          | none => "N/A" }

/-- Model of extract_paper_info(xml_data) (src/data_extractor.py lines 22-83).
The external XML parser (`ET.fromstring` composed with the
`.//PubmedArticle` findall) is passed as `fromstring`; its `Except.error`
models a raised `ET.ParseError`.  The result pairs the returned paper list
with the list of printed diagnostic messages; an overall `Except.error`
models an uncaught exception escaping the function. -/
def extract_paper_info (fromstring : String → Except String (List ParsedArticle))
    (xml_data : String) : Except String (List PaperInfo × List String) :=
  if xml_data = "" then .ok ([], [])
  else
    match fromstring xml_data with
    | .error e => .ok ([], ["Error parsing XML data: " ++ e])
    | .ok articles => (articles.mapM extractArticle).map (fun ps => (ps, []))

/-!  ## Keyword Highlight Segmenter (src/excel_writer.py)

A `CellRichText` is modelled as a list of runs; `TextBlock(normal_font, s)`
is an unhighlighted run and `TextBlock(highlight_font, s)` a highlighted
one.  The `while True` loops are modelled with a fuel argument; the
top-level functions pass fuel `len(text) + 1`, which is never exhausted for
the non-empty keywords the guards allow through (each iteration either
stops or advances the search position by at least one character). -/

/-- One run of rich text: the slice and whether it is highlighted. -/
structure TextBlock where
  text : List Char
  highlighted : Bool
deriving DecidableEq, Repr

/-- Concatenation of the run texts of a rich-text value. -/
def runsText (runs : List TextBlock) : List Char :=
  (runs.map TextBlock.text).flatten

/-- The `while True` loop of `create_rich_text_with_keyword_highlighting`
(src/excel_writer.py lines 80-95), followed by the trailing-remainder step
of lines 97-99.  `kwLen` is `len(keyword)`; positions are found in
`textLower` and sliced out of `text`. -/
def hlLoop (text textLower kwLower : List Char) (kwLen : Nat)
    (lastEnd start : Nat) : Nat → List TextBlock
  | 0 =>
    if lastEnd < text.length then [⟨text.drop lastEnd, false⟩] else []
  | fuel + 1 =>
    match pyFind textLower kwLower start with
    | none =>
      if lastEnd < text.length then [⟨text.drop lastEnd, false⟩] else []
    | some p =>
      (if lastEnd < p then [⟨(text.drop lastEnd).take (p - lastEnd), false⟩] else [])
        ++ ⟨(text.drop p).take kwLen, true⟩
        :: hlLoop text textLower kwLower kwLen (p + kwLen) (p + kwLen) fuel

/-- Model of create_rich_text_with_keyword_highlighting(text, keyword)
(src/excel_writer.py lines 60-101).  The guard `not text or not keyword or
text == "N/A"` returns the plain text as a single unhighlighted run. -/
def create_rich_text_with_keyword_highlighting (text keyword : String) :
    List TextBlock :=
  if text.data = [] ∨ keyword.data = [] ∨ text = "N/A" then [⟨text.data, false⟩]
  else
    hlLoop text.data (pyLower text.data) (pyLower keyword.data)
      keyword.data.length 0 0 (text.data.length + 1)

/-- The sub-keyword list, from src/excel_writer.py line 46 and line 113:
split on the separator, strip each piece, keep the non-empty ones. -/
def sub_keywords (compound_keyword : String) : List (List Char) :=
  ((List.splitOn '+' compound_keyword.data).map pyStrip).filter (fun k => k ≠ [])

/-- One collected match: `(start_pos, end_pos, original_text_slice)`. -/
abbrev MatchSpan := Nat × Nat × List Char

/-- The per-sub-keyword `while True` collection loop
(src/excel_writer.py lines 137-144): find each occurrence, record
`(pos, pos + len(sub_keyword), text[pos:pos + len(sub_keyword)])` and
resume the search past it. -/
def collectLoop (text textLower kwLower : List Char) (kwLen : Nat)
    (start : Nat) : Nat → List MatchSpan
  | 0 => []
  | fuel + 1 =>
    match pyFind textLower kwLower start with
    | none => []
    | some p =>
      (p, p + kwLen, (text.drop p).take kwLen)
        :: collectLoop text textLower kwLower kwLen (p + kwLen) fuel

/-- The list `all_matches` accumulated over all sub-keywords
(src/excel_writer.py lines 134-144). -/
def all_matches (text : List Char) (subs : List (List Char)) : List MatchSpan :=
  subs.flatMap (fun k =>
    collectLoop text (pyLower text) (pyLower k) k.length 0 (text.length + 1))

/-- Stable insertion into a list sorted by start offset: the new element
goes after every element whose start offset is less than or equal to its
own, so earlier-collected matches win ties. -/
def insertMatch (m : MatchSpan) : List MatchSpan → List MatchSpan
  | [] => [m]
  | x :: xs => if x.1 ≤ m.1 then x :: insertMatch m xs else m :: x :: xs

/-- Model of `all_matches.sort(key=lambda x: x[0])` (src/excel_writer.py
line 150):
Python's `list.sort` is a stable sort by the key, modelled here by a stable
insertion sort by start offset (extensionally equal to any stable sort). -/
def sortMatches (ms : List MatchSpan) : List MatchSpan :=
  ms.foldl (fun acc m => insertMatch m acc) []

/-- The overlap-removal loop (src/excel_writer.py lines 151-157): keep a
match iff the kept list is empty or its start is at least the end of the
last kept match. -/
def filterOverlapsAux (acc : List MatchSpan) : List MatchSpan → List MatchSpan
  | [] => acc
  | m :: rest =>
    match acc.getLast? with
    | none => filterOverlapsAux (acc ++ [m]) rest
    | some l =>
      if l.2.1 ≤ m.1 then filterOverlapsAux (acc ++ [m]) rest
      else filterOverlapsAux acc rest

/-- The filtered, non-overlapping match list for a text and compound spec. -/
def filtered_matches (text : List Char) (compound_keyword : String) :
    List MatchSpan :=
  filterOverlapsAux [] (sortMatches (all_matches text (sub_keywords compound_keyword)))

/-- The run-construction loop over the filtered matches
(src/excel_writer.py lines 160-180): before-text (when non-empty), the
highlighted match slice (when non-empty), then the remaining text. -/
def buildRuns (text : List Char) (lastEnd : Nat) : List MatchSpan → List TextBlock
  | [] =>
    if lastEnd < text.length then
      if text.drop lastEnd ≠ [] then [⟨text.drop lastEnd, false⟩] else []
    else []
  | (s, e, mtext) :: rest =>
    (if lastEnd < s then
        if (text.drop lastEnd).take (s - lastEnd) ≠ [] then
          [⟨(text.drop lastEnd).take (s - lastEnd), false⟩]
        else []
      else [])
      ++ (if mtext ≠ [] then [⟨mtext, true⟩] else [])
      ++ buildRuns text e rest

/-- Model of create_rich_text_with_compound_keyword_highlighting
(src/excel_writer.py lines 103-186), with every early-return guard of the
source: falsy/sentinel input, no sub-keywords, no sub-keyword occurring in
the lowered text, no collected matches, and an empty final run list. -/
def create_rich_text_with_compound_keyword_highlighting
    (text compound_keyword : String) : List TextBlock :=
  if text.data = [] ∨ compound_keyword.data = [] ∨ text = "N/A" then
    [⟨text.data, false⟩]
  else if sub_keywords compound_keyword = [] then [⟨text.data, false⟩]
  else if ¬ (sub_keywords compound_keyword).any
      (fun k => pyContains (pyLower text.data) (pyLower k)) then
    [⟨text.data, false⟩]
  else if all_matches text.data (sub_keywords compound_keyword) = [] then
    [⟨text.data, false⟩]
  else
    let runs := buildRuns text.data 0 (filtered_matches text.data compound_keyword)
    if runs = [] then [⟨text.data, false⟩] else runs

/-!  ## Title filters (src/excel_writer.py, filter_papers_by_keyword and
filter_papers_by_compound_keyword)

A Python paper dictionary is modelled as an association list of
string-valued fields; `paper.get("Title", "")` is an association lookup
with default.  The pure functions below give the value-level behaviour;
the `Store`-passing versions further down model Python object identity for
the frame property (`paper.copy()` allocates a fresh dictionary). -/

/-- A paper record dictionary: association list of field name / value. -/
abbrev Dict := List (String × String)

/-- Model of `d.get(k, dflt)`: the first binding of `k`, or the default. -/
def dictGet (d : Dict) (k dflt : String) : String :=
  match d.find? (fun kv => kv.1 = k) with
  | some kv => kv.2
  | none => dflt

/-- Model of `paper.copy()`: a shallow copy — a new dictionary with equal entries.
At the value level this is the identity; object identity is modelled by
the store semantics below. -/
def dictCopy (d : Dict) : Dict := d

/-- The match condition of `filter_papers_by_keyword` (line 36):
`keyword.lower() in paper.get("Title", "").lower()`. -/
def keywordCond (keyword : String) (paper : Dict) : Bool :=
  pyContains (pyLower (dictGet paper "Title" "").data) (pyLower keyword.data)

/-- The match condition of `filter_papers_by_compound_keyword` (lines 53-55):
some sub-keyword, lowered, occurs in the lowered title. -/
def compoundCond (compound_keyword : String) (paper : Dict) : Bool :=
  (sub_keywords compound_keyword).any
    (fun sub => pyContains (pyLower (dictGet paper "Title" "").data) (pyLower sub))

/-- Model of filter_papers_by_keyword(papers_data, keyword)
(src/excel_writer.py lines 29-38). -/
def filter_papers_by_keyword (papers_data : List Dict) (keyword : String) :
    List Dict :=
  match papers_data with
  | [] => []
  | p :: rest =>
    if keywordCond keyword p then
      dictCopy p :: filter_papers_by_keyword rest keyword
    else filter_papers_by_keyword rest keyword

/-- Model of filter_papers_by_compound_keyword(papers_data, compound_keyword)
(src/excel_writer.py lines 40-58): empty sub-keyword list returns `[]`,
otherwise filter by the OR condition. -/
def filter_papers_by_compound_keyword (papers_data : List Dict)
    (compound_keyword : String) : List Dict :=
  if sub_keywords compound_keyword = [] then []
  else
    match papers_data with
    | [] => []
    | p :: rest =>
      if compoundCond compound_keyword p then
        dictCopy p :: filter_papers_by_compound_keyword rest compound_keyword
      else filter_papers_by_compound_keyword rest compound_keyword

/-!  ### Store semantics for the frame property

The Python heap of dictionary objects is modelled as a list of `Dict`
cells; a paper reference is an index into the store.  `paper.copy()`
allocates a fresh cell holding equal entries at the end of the store. -/

/-- The heap of dictionary objects. -/
abbrev Store := List Dict

/-- The shared filtering loop of both filter functions, at the store level:
read the dictionary each reference denotes, test the match condition, and
on a match append a fresh copy to the store and return its reference. -/
def filterStLoop (pred : Dict → Bool) (st : Store) :
    List Nat → Store × List Nat
  | [] => (st, [])
  | r :: rest =>
    if pred (st.getD r []) then
      let res := filterStLoop pred (st ++ [dictCopy (st.getD r [])]) rest
      (res.1, st.length :: res.2)
    else filterStLoop pred st rest

/-- Store-level `filter_papers_by_keyword`: the input list holds references
into the store; the result is the final store and the references of the
appended copies. -/
def filter_papers_by_keyword_store (st : Store) (papers : List Nat)
    (keyword : String) : Store × List Nat :=
  filterStLoop (keywordCond keyword) st papers

/-- Store-level `filter_papers_by_compound_keyword`. -/
def filter_papers_by_compound_keyword_store (st : Store) (papers : List Nat)
    (compound_keyword : String) : Store × List Nat :=
  if sub_keywords compound_keyword = [] then (st, [])
  else filterStLoop (compoundCond compound_keyword) st papers

/-!  ## Concrete instances used by claim theorems and witnesses  -/

/-- Structural facts about every collected match: its start is at most its
end, and its text is exactly the source slice between the two offsets. -/
def GoodMatch (text : List Char) (m : MatchSpan) : Prop :=
  m.1 ≤ m.2.1 ∧ m.2.2 = (text.drop m.1).take (m.2.1 - m.1)

/-- A match list is a chain from base offset `b`: starts are at least the
previous end, and each match's start is at most its end.  This is the
non-overlap invariant the greedy filter establishes. -/
def Chained : Nat → List MatchSpan → Prop
  | _, [] => True
  | b, m :: rest => b ≤ m.1 ∧ m.1 ≤ m.2.1 ∧ Chained m.2.1 rest

/-- The concrete tree of the C3 counterexample: a node with text "a",
one child with text " b" and tail "c". -/
def flattenClaimNode : MarkupNode :=
  .node (some "a") [.node (some " b") [] (some "c")] none

/-- The C5 failing input: a PubmedArticle with no PubDate element. -/
def articleNoPubDate : ParsedArticle :=
  ⟨some (.node (some "Sample title") [] none), none, none, [], none, none⟩

/-- The C5 positive instance: PubDate present with year "2024" and no
Month or Day sub-elements. -/
def articleYear2024 : ParsedArticle :=
  ⟨none, none, some ⟨some "2024", none, none⟩, [], none, none⟩

/-- A concrete article with a PubDate element, for the C7 witness. -/
def articleWithPd : ParsedArticle :=
  ⟨none, none, some ⟨some "2020", some "5", some "7"⟩, [], none, none⟩

/-- A concrete paper dictionary for the C8 witness. -/
def examplePaper : Dict := [("Title", "Deep enzyme design")]

/-- A concrete store for the C10 witness. -/
def exampleStore : Store :=
  [[("Title", "AlphaFold paper")], [("Title", "other work")]]

/-!  ## Helper lemmas  -/

theorem pyFindAux_ge {hay needle : List Char} :
    ∀ {fuel i p : Nat}, pyFindAux hay needle i fuel = some p → i ≤ p := by
  intro fuel
  induction fuel with
  | zero => intro i p h; simp [pyFindAux] at h
  | succ n ih =>
    intro i p h
    simp only [pyFindAux] at h
    split at h
    · cases h; exact Nat.le_refl _
    · exact Nat.le_of_succ_le (ih h)

theorem pyFindAux_match_at {hay needle : List Char} :
    ∀ {fuel i p : Nat}, pyFindAux hay needle i fuel = some p →
      needle.isPrefixOf (hay.drop p) = true := by
  intro fuel
  induction fuel with
  | zero => intro i p h; simp [pyFindAux] at h
  | succ n ih =>
    intro i p h
    simp only [pyFindAux] at h
    split at h
    · cases h; assumption
    · exact ih h

theorem pyFind_ge {hay needle : List Char} {start p : Nat}
    (h : pyFind hay needle start = some p) : start ≤ p :=
  pyFindAux_ge h

/-- Splitting a suffix of a list at two positions `a ≤ s ≤ e`. -/
theorem drop_split3 (text : List Char) {a s : Nat} (e : Nat) (h1 : a ≤ s) :
    text.drop a
      = (text.drop a).take (s - a) ++ ((text.drop s).take (e - s) ++ text.drop (s + (e - s))) := by
  have h2 : text.drop s = (text.drop s).take (e - s) ++ text.drop (s + (e - s)) := by
    have := List.take_append_drop (e - s) (text.drop s)
    rw [List.drop_drop] at this
    exact this.symm
  have h3 : text.drop a = (text.drop a).take (s - a) ++ text.drop s := by
    have := List.take_append_drop (s - a) (text.drop a)
    rw [List.drop_drop, Nat.add_sub_cancel' h1] at this
    exact this.symm
  rw [← h2, ← h3]

theorem runsText_nil : runsText [] = [] := rfl

theorem runsText_cons (b : TextBlock) (rest : List TextBlock) :
    runsText (b :: rest) = b.text ++ runsText rest := by
  simp [runsText]

theorem runsText_append (xs ys : List TextBlock) :
    runsText (xs ++ ys) = runsText xs ++ runsText ys := by
  simp [runsText]

/-- Round-trip invariant of the single-keyword loop: from any state with
`lastEnd ≤ start`, the emitted runs concatenate to the suffix of `text`
from `lastEnd`, for any fuel. -/
theorem hlLoop_concat (text textLower kwLower : List Char) (kwLen : Nat) :
    ∀ (fuel lastEnd start : Nat), lastEnd ≤ start →
      runsText (hlLoop text textLower kwLower kwLen lastEnd start fuel)
        = text.drop lastEnd := by
  intro fuel
  induction fuel with
  | zero =>
    intro lastEnd start _
    by_cases hlt : lastEnd < text.length
    · simp [hlLoop, hlt, runsText]
    · simp [hlLoop, hlt, runsText,
        List.drop_eq_nil_of_le (Nat.le_of_not_lt hlt)]
  | succ n ih =>
    intro lastEnd start hle
    rw [hlLoop]
    split
    · by_cases hlt : lastEnd < text.length
      · simp [hlt, runsText]
      · simp [hlt, runsText, List.drop_eq_nil_of_le (Nat.le_of_not_lt hlt)]
    · rename_i p hfind
      have hlp : lastEnd ≤ p := Nat.le_trans hle (pyFind_ge hfind)
      have hrec := ih (p + kwLen) (p + kwLen) (Nat.le_refl _)
      have hsplit := drop_split3 text (p + kwLen) hlp
      rw [Nat.add_sub_cancel_left] at hsplit
      by_cases hblt : lastEnd < p
      · rw [if_pos hblt, runsText_append]
        simp only [runsText_cons, runsText_nil, List.append_nil]
        rw [hrec]
        exact hsplit.symm
      · have hep : lastEnd = p := Nat.le_antisymm hlp (Nat.le_of_not_lt hblt)
        rw [if_neg hblt, List.nil_append, runsText_cons, hrec]
        subst hep
        simp


theorem collectLoop_good (text textLower kwLower : List Char) (kwLen : Nat) :
    ∀ (fuel start : Nat) (m : MatchSpan),
      m ∈ collectLoop text textLower kwLower kwLen start fuel →
      GoodMatch text m := by
  intro fuel
  induction fuel with
  | zero => intro start m h; simp [collectLoop] at h
  | succ n ih =>
    intro start m h
    rw [collectLoop] at h
    split at h
    · simp at h
    · rename_i p _
      rcases List.mem_cons.mp h with h1 | h2
      · subst h1
        exact ⟨Nat.le_add_right p kwLen, by rw [Nat.add_sub_cancel_left]⟩
      · exact ih _ _ h2

theorem all_matches_good (text : List Char) (subs : List (List Char)) :
    ∀ m ∈ all_matches text subs, GoodMatch text m := by
  intro m hm
  rcases List.mem_flatMap.mp hm with ⟨k, _, hmk⟩
  exact collectLoop_good _ _ _ _ _ _ m hmk

theorem mem_insertMatch {x : MatchSpan} :
    ∀ {xs : List MatchSpan} {m : MatchSpan},
      m ∈ insertMatch x xs → m = x ∨ m ∈ xs := by
  intro xs
  induction xs with
  | nil =>
    intro m h
    rw [insertMatch] at h
    exact Or.inl (List.mem_singleton.mp h)
  | cons a t ih =>
    intro m h
    rw [insertMatch] at h
    split at h
    · rcases List.mem_cons.mp h with h1 | h2
      · exact Or.inr (List.mem_cons.mpr (Or.inl h1))
      · rcases ih h2 with h3 | h4
        · exact Or.inl h3
        · exact Or.inr (List.mem_cons.mpr (Or.inr h4))
    · rcases List.mem_cons.mp h with h1 | h2
      · exact Or.inl h1
      · exact Or.inr h2

theorem mem_sortMatches_aux :
    ∀ (ms acc : List MatchSpan) (m : MatchSpan),
      m ∈ ms.foldl (fun acc m => insertMatch m acc) acc → m ∈ acc ∨ m ∈ ms := by
  intro ms
  induction ms with
  | nil => intro acc m h; exact Or.inl h
  | cons a t ih =>
    intro acc m h
    rw [List.foldl_cons] at h
    rcases ih _ m h with h1 | h2
    · rcases mem_insertMatch h1 with h3 | h4
      · exact Or.inr (List.mem_cons.mpr (Or.inl h3))
      · exact Or.inl h4
    · exact Or.inr (List.mem_cons.mpr (Or.inr h2))

theorem mem_sortMatches {ms : List MatchSpan} {m : MatchSpan}
    (h : m ∈ sortMatches ms) : m ∈ ms := by
  rcases mem_sortMatches_aux ms [] m h with h1 | h2
  · simp at h1
  · exact h2


theorem Chained.append_last :
    ∀ {acc : List MatchSpan} {b : Nat} {l m : MatchSpan},
      Chained b acc → acc.getLast? = some l → l.2.1 ≤ m.1 → m.1 ≤ m.2.1 →
      Chained b (acc ++ [m]) := by
  intro acc
  induction acc with
  | nil => intro b l m _ hl _ _; simp at hl
  | cons a t ih =>
    intro b l m hc hl h1 h2
    cases t with
    | nil =>
      rw [List.getLast?_singleton] at hl
      cases hl
      exact ⟨hc.1, hc.2.1, h1, h2, trivial⟩
    | cons a2 t2 =>
      rw [List.getLast?_cons_cons] at hl
      exact ⟨hc.1, hc.2.1, ih hc.2.2 hl h1 h2⟩

theorem filterOverlapsAux_chained :
    ∀ (ms acc : List MatchSpan), Chained 0 acc →
      (∀ m ∈ ms, m.1 ≤ m.2.1) → Chained 0 (filterOverlapsAux acc ms) := by
  intro ms
  induction ms with
  | nil => intro acc hc _; exact hc
  | cons m t ih =>
    intro acc hc hall
    rw [filterOverlapsAux]
    split
    · rename_i hnone
      have hacc : acc = [] := List.getLast?_eq_none_iff.mp hnone
      subst hacc
      exact ih [m] ⟨Nat.zero_le _, hall m (List.mem_cons_self m t), trivial⟩
        (fun x hx => hall x (List.mem_cons_of_mem m hx))
    · rename_i l hsome
      split
      · rename_i hle
        exact ih (acc ++ [m])
          (Chained.append_last hc hsome hle (hall m (List.mem_cons_self m t)))
          (fun x hx => hall x (List.mem_cons_of_mem m hx))
      · exact ih acc hc (fun x hx => hall x (List.mem_cons_of_mem m hx))

theorem mem_filterOverlapsAux :
    ∀ (ms acc : List MatchSpan) (m : MatchSpan),
      m ∈ filterOverlapsAux acc ms → m ∈ acc ∨ m ∈ ms := by
  intro ms
  induction ms with
  | nil => intro acc m h; exact Or.inl h
  | cons x t ih =>
    intro acc m h
    rw [filterOverlapsAux] at h
    have step : m ∈ acc ++ [x] ∨ m ∈ t → m ∈ acc ∨ m ∈ x :: t := by
      intro hs
      rcases hs with hs | hs
      · rcases List.mem_append.mp hs with hs | hs
        · exact Or.inl hs
        · exact Or.inr (List.mem_cons.mpr (Or.inl (List.mem_singleton.mp hs)))
      · exact Or.inr (List.mem_cons.mpr (Or.inr hs))
    split at h
    · exact step (ih _ m h)
    · split at h
      · exact step (ih _ m h)
      · rcases ih _ m h with h1 | h2
        · exact Or.inl h1
        · exact Or.inr (List.mem_cons.mpr (Or.inr h2))

/-- Round-trip invariant of the compound run-construction loop: over a
chained list of good matches the emitted runs concatenate to the suffix of
`text` from `lastEnd`. -/
theorem buildRuns_concat (text : List Char) :
    ∀ (ms : List MatchSpan) (lastEnd : Nat), Chained lastEnd ms →
      (∀ m ∈ ms, GoodMatch text m) →
      runsText (buildRuns text lastEnd ms) = text.drop lastEnd := by
  intro ms
  induction ms with
  | nil =>
    intro lastEnd _ _
    rw [buildRuns]
    by_cases hlt : lastEnd < text.length
    · rw [if_pos hlt]
      by_cases hne : text.drop lastEnd = []
      · rw [if_neg (not_not_intro hne), hne]; rfl
      · rw [if_pos hne]
        simp [runsText]
    · rw [if_neg hlt]
      rw [List.drop_eq_nil_of_le (Nat.le_of_not_lt hlt)]
      rfl
  | cons m rest ih =>
    intro lastEnd hchain hall
    obtain ⟨s, e, txt⟩ := m
    obtain ⟨hbs, hse, hcrest⟩ := hchain
    obtain ⟨_, htxt⟩ := hall _ (List.mem_cons_self _ _)
    simp only at hbs hse htxt
    rw [buildRuns, runsText_append, runsText_append]
    have hrec := ih e hcrest (fun x hx => hall x (List.mem_cons_of_mem _ hx))
    rw [hrec]
    have hA : runsText
        (if lastEnd < s then
          if (text.drop lastEnd).take (s - lastEnd) ≠ [] then
            [⟨(text.drop lastEnd).take (s - lastEnd), false⟩]
          else []
        else []) = (text.drop lastEnd).take (s - lastEnd) := by
      by_cases hlt : lastEnd < s
      · rw [if_pos hlt]
        by_cases hne : (text.drop lastEnd).take (s - lastEnd) = []
        · rw [if_neg (not_not_intro hne), hne]; rfl
        · rw [if_pos hne]; simp [runsText]
      · rw [if_neg hlt]
        have : lastEnd = s := Nat.le_antisymm hbs (Nat.le_of_not_lt hlt)
        rw [← this, Nat.sub_self, List.take_zero]
        rfl
    have hB : runsText (if txt ≠ [] then [⟨txt, true⟩] else []) = txt := by
      by_cases hne : txt = []
      · rw [if_neg (not_not_intro hne), hne]; rfl
      · rw [if_pos hne]; simp [runsText]
    rw [hA, hB, htxt]
    have := drop_split3 text e hbs
    rw [Nat.add_sub_cancel' hse] at this
    rw [List.append_assoc]
    exact this.symm

theorem runsText_plain (t : List Char) : runsText [⟨t, false⟩] = t := by
  simp [runsText]

theorem pyStrip_sublist (s : List Char) : (pyStrip s).Sublist s := by
  have h1 : (s.dropWhile pyIsSpace).Sublist s := List.dropWhile_sublist _
  have h2 : ((s.dropWhile pyIsSpace).reverse.dropWhile pyIsSpace).Sublist
      (s.dropWhile pyIsSpace).reverse := List.dropWhile_sublist _
  have h3 := h2.reverse
  rw [List.reverse_reverse] at h3
  exact h3.trans h1

theorem filter_dropWhile_self (p : Char → Bool) (l : List Char) :
    (l.dropWhile p).filter (fun c => !p c) = l.filter (fun c => !p c) := by
  induction l with
  | nil => rfl
  | cons a t ih =>
    by_cases hp : p a
    · simp [List.dropWhile_cons, List.filter_cons, hp, ih]
    · simp [List.dropWhile_cons, List.filter_cons, hp]

theorem pyStrip_filter (s : List Char) :
    (pyStrip s).filter (fun c => !pyIsSpace c)
      = s.filter (fun c => !pyIsSpace c) := by
  rw [pyStrip, List.filter_reverse, filter_dropWhile_self, List.filter_reverse,
    List.reverse_reverse, filter_dropWhile_self]

mutual

theorem get_full_text_spec (n : MarkupNode) :
    (get_full_text n).Sublist (rawFlatten n)
    ∧ (get_full_text n).filter (fun c => !pyIsSpace c)
        = (rawFlatten n).filter (fun c => !pyIsSpace c) := by
  match n with
  | .node text children tail =>
    have hc := get_full_text_children_spec children
    constructor
    · rw [get_full_text, rawFlatten]
      exact (pyStrip_sublist _).trans ((List.Sublist.refl _).append hc.1)
    · rw [get_full_text, rawFlatten, pyStrip_filter, List.filter_append,
        List.filter_append, hc.2]

theorem get_full_text_children_spec (cs : List MarkupNode) :
    (get_full_text_children cs).Sublist (rawFlattenChildren cs)
    ∧ (get_full_text_children cs).filter (fun c => !pyIsSpace c)
        = (rawFlattenChildren cs).filter (fun c => !pyIsSpace c) := by
  match cs with
  | [] => exact ⟨List.Sublist.refl _, rfl⟩
  | c :: rest =>
    have h1 := get_full_text_spec c
    have h2 := get_full_text_children_spec rest
    constructor
    · rw [get_full_text_children, rawFlattenChildren]
      exact (h1.1.append (List.Sublist.refl _)).append h2.1
    · rw [get_full_text_children, rawFlattenChildren]
      simp only [List.filter_append, h1.2, h2.2]

end

/-!  ## Claim theorems  -/

/-- C1: for every text string and every keyword spec (plain single term or
compound spec), concatenating the text fields of all runs produced by the
highlight segmenter, in order, yields exactly the original text. -/
theorem segmenter_round_trip (text keyword : String) :
    runsText (create_rich_text_with_keyword_highlighting text keyword)
        = text.data
    ∧ runsText (create_rich_text_with_compound_keyword_highlighting text keyword)
        = text.data := by
  have hgood : ∀ m ∈ filtered_matches text.data keyword,
      GoodMatch text.data m := by
    intro m hm
    rcases mem_filterOverlapsAux _ _ _ hm with h | h
    · simp at h
    · exact all_matches_good _ _ m (mem_sortMatches h)
  have hch : Chained 0 (filtered_matches text.data keyword) :=
    filterOverlapsAux_chained _ [] trivial
      (fun m hm => (all_matches_good _ _ m (mem_sortMatches hm)).1)
  constructor
  · rw [create_rich_text_with_keyword_highlighting]
    split
    · exact runsText_plain _
    · have := hlLoop_concat text.data (pyLower text.data)
        (pyLower keyword.data) keyword.data.length
        (text.data.length + 1) 0 0 (Nat.le_refl 0)
      rw [List.drop_zero] at this
      exact this
  · rw [create_rich_text_with_compound_keyword_highlighting]
    split
    · exact runsText_plain _
    split
    · exact runsText_plain _
    split
    · exact runsText_plain _
    split
    · exact runsText_plain _
    · dsimp only
      by_cases hruns :
          buildRuns text.data 0 (filtered_matches text.data keyword) = []
      · rw [if_pos hruns]; exact runsText_plain _
      · rw [if_neg hruns]
        have := buildRuns_concat text.data (filtered_matches text.data keyword)
          0 hch hgood
        rw [List.drop_zero] at this
        exact this

/-- C2: the compound segmenter collects all per-sub-term matches, sorts
them stably by start offset, and keeps a match only when its start is at
least the end of the last kept match (the `Chained` invariant below); in
particular, on text "abcdef" with spec "abc+bcd" only "abc" at offsets 0-3
is highlighted and "bcd" is discarded. -/
theorem segmenter_compound_overlap_resolution :
    create_rich_text_with_compound_keyword_highlighting "abcdef" "abc+bcd"
        = [⟨"abc".data, true⟩, ⟨"def".data, false⟩]
    ∧ ∀ (text : List Char) (ckw : String),
        Chained 0 (filtered_matches text ckw) := by
  constructor
  · decide
  · intro text ckw
    exact filterOverlapsAux_chained _ [] trivial
      (fun m hm => (all_matches_good _ _ m (mem_sortMatches hm)).1)


/-- C3 counterexample: the flattener is NOT "raw concatenation followed by
one final leading/trailing trim" — the recursion trims at every level, so
the interior space of the child text " b" is dropped even though it is not
leading or trailing in the raw concatenation "a bc". -/
theorem flattener_final_trim_only_counterexample :
    ¬ (get_full_text flattenClaimNode = pyStrip (rawFlatten flattenClaimNode)) := by
  decide

/-- C3 as amended: the flattener equals the recursive concatenation where
every recursive call trims its own result; consequently the output is an
in-order sublist of the raw (untrimmed) concatenation, and only whitespace
characters are ever dropped — no text is duplicated, reordered, or dropped
other than whitespace at nested boundaries. -/
theorem flattener_whitespace_only_drops (n : MarkupNode) :
    (get_full_text n).Sublist (rawFlatten n)
    ∧ (get_full_text n).filter (fun c => !pyIsSpace c)
        = (rawFlatten n).filter (fun c => !pyIsSpace c) :=
  get_full_text_spec n

/-- C4: segmenting "aaa" with the single term "aa" yields exactly one
highlighted run "aa" (at offset 0) followed by one unhighlighted run "a":
the scan resumes at the end of each match, so self-overlapping occurrences
produce only the earlier match. -/
theorem segmenter_single_nonoverlap :
    create_rich_text_with_keyword_highlighting "aaa" "aa"
      = [⟨"aa".data, true⟩, ⟨"a".data, false⟩] := by
  decide



/-- C5 (code bug): a record with no PubDate element at all makes per-record
extraction raise — `pub_date.findtext` is evaluated on `None` without a
guard and the resulting AttributeError is not caught — contradicting the
claim that absent date parts are always defaulted and never an error.
When the PubDate element is present the claimed instance does hold: year
"2024" with missing Month and Day yields Published Date "2024-01-01". -/
theorem extract_missing_pubdate_raises :
    (∃ e, extractArticle articleNoPubDate = .error e)
    ∧ Except.map PaperInfo.PublishedDate (extractArticle articleYear2024)
        = .ok "2024-01-01" :=
  ⟨⟨_, rfl⟩, rfl⟩

/-- C6: a non-empty batch whose XML envelope fails to parse yields an
empty record list plus one printed diagnostic and no raised error, so no
partially-extracted records escape the failed batch. -/
theorem parse_failure_empty_and_diagnostic
    (fromstring : String → Except String (List ParsedArticle))
    (xml_data e : String) (hne : xml_data ≠ "")
    (herr : fromstring xml_data = .error e) :
    extract_paper_info fromstring xml_data
      = .ok ([], ["Error parsing XML data: " ++ e]) := by
  rw [extract_paper_info, if_neg hne, herr]

theorem parse_failure_empty_and_diagnostic_witness :
    extract_paper_info (fun _ => .error "syntax error") "<bad"
      = .ok ([], ["Error parsing XML data: syntax error"]) :=
  parse_failure_empty_and_diagnostic (fun _ => .error "syntax error") "<bad"
    "syntax error" (by decide) rfl

/-- C7: for a record whose extraction succeeds (PubDate present), an
absent Abstract element yields the sentinel "N/A" while a present Abstract
element with zero AbstractText segments yields the empty string (an empty
join); the two outputs are distinguishable. -/
theorem abstract_default_asymmetry (a : ParsedArticle) (pd : PubDateElem)
    (h : a.pubDate = some pd) :
    Except.map PaperInfo.Abstract (extractArticle { a with abstract := none })
        = .ok "N/A"
    ∧ Except.map PaperInfo.Abstract (extractArticle { a with abstract := some [] })
        = .ok ""
    ∧ ("N/A" : String) ≠ "" := by
  refine ⟨?_, ?_, by decide⟩
  · simp [extractArticle, h, extractAbstractField, Except.map]
  · simp [extractArticle, h, extractAbstractField, Except.map]
    rfl


theorem abstract_default_asymmetry_witness :
    Except.map PaperInfo.Abstract
        (extractArticle { articleWithPd with abstract := none }) = .ok "N/A"
    ∧ Except.map PaperInfo.Abstract
        (extractArticle { articleWithPd with abstract := some [] }) = .ok ""
    ∧ ("N/A" : String) ≠ "" :=
  abstract_default_asymmetry articleWithPd ⟨some "2020", some "5", some "7"⟩ rfl

/-- C9: the empty (falsy) xml_data input returns the empty list without
invoking the parser: the result is the same for every parser function and
carries no diagnostics. -/
theorem empty_input_returns_empty_without_parsing
    (fromstring : String → Except String (List ParsedArticle)) :
    extract_paper_info fromstring "" = .ok ([], []) := rfl

theorem pyFindAux_complete {hay needle : List Char} :
    ∀ (fuel start i : Nat), start ≤ i → i < start + fuel →
      needle.isPrefixOf (hay.drop i) = true →
      (pyFindAux hay needle start fuel).isSome = true := by
  intro fuel
  induction fuel with
  | zero => intro start i h1 h2 _; omega
  | succ n ih =>
    intro start i h1 h2 hpre
    rw [pyFindAux]
    split
    · simp
    · rename_i hnp
      have hne : start ≠ i := fun he => hnp (by rw [he]; exact hpre)
      exact ih (start + 1) i (Nat.lt_of_le_of_ne h1 hne) (by omega) hpre

/-- Correctness of the substring test: `needle in hay` holds iff the
needle occurs at some offset. -/
theorem pyContains_iff (hay needle : List Char) :
    pyContains hay needle = true
      ↔ ∃ i, needle.isPrefixOf (hay.drop i) = true := by
  constructor
  · intro h
    rw [pyContains] at h
    cases hf : pyFind hay needle 0 with
    | none => rw [hf] at h; simp at h
    | some p => exact ⟨p, pyFindAux_match_at hf⟩
  · rintro ⟨i, hi⟩
    rw [pyContains, pyFind]
    by_cases hle : i ≤ hay.length
    · exact pyFindAux_complete _ 0 i (Nat.zero_le i) (by omega) hi
    · have hdrop : hay.drop i = [] := List.drop_eq_nil_of_le (by omega)
      rw [hdrop] at hi
      have hn : needle = [] := by
        cases needle with
        | nil => rfl
        | cons c t => simp [List.isPrefixOf] at hi
      subst hn
      exact pyFindAux_complete _ 0 0 (Nat.le_refl 0) (by omega)
        (by simp [List.isPrefixOf])

theorem mem_filter_papers_by_keyword (papers : List Dict) (kw : String)
    (p : Dict) :
    p ∈ filter_papers_by_keyword papers kw
      ↔ p ∈ papers ∧ keywordCond kw p = true := by
  induction papers with
  | nil => simp [filter_papers_by_keyword]
  | cons q rest ih =>
    rw [filter_papers_by_keyword]
    by_cases hc : keywordCond kw q = true
    · rw [if_pos hc]
      simp only [dictCopy, List.mem_cons, ih]
      constructor
      · rintro (rfl | ⟨hp, hcond⟩)
        · exact ⟨Or.inl rfl, hc⟩
        · exact ⟨Or.inr hp, hcond⟩
      · rintro ⟨rfl | hp, hcond⟩
        · exact Or.inl rfl
        · exact Or.inr ⟨hp, hcond⟩
    · rw [if_neg hc]
      simp only [List.mem_cons, ih]
      constructor
      · rintro ⟨hp, hcond⟩
        exact ⟨Or.inr hp, hcond⟩
      · rintro ⟨rfl | hp, hcond⟩
        · exact absurd hcond hc
        · exact ⟨hp, hcond⟩

theorem mem_filter_papers_by_compound_keyword (papers : List Dict)
    (ckw : String) (p : Dict) :
    p ∈ filter_papers_by_compound_keyword papers ckw
      ↔ p ∈ papers ∧ compoundCond ckw p = true := by
  by_cases hs : sub_keywords ckw = []
  · rw [filter_papers_by_compound_keyword.eq_def, if_pos hs]
    simp [compoundCond, hs]
  · induction papers with
    | nil => rw [filter_papers_by_compound_keyword, if_neg hs]; simp
    | cons q rest ih =>
      rw [filter_papers_by_compound_keyword, if_neg hs]
      by_cases hc : compoundCond ckw q = true
      · rw [if_pos hc]
        simp only [dictCopy, List.mem_cons, ih]
        constructor
        · rintro (rfl | ⟨hp, hcond⟩)
          · exact ⟨Or.inl rfl, hc⟩
          · exact ⟨Or.inr hp, hcond⟩
        · rintro ⟨rfl | hp, hcond⟩
          · exact Or.inl rfl
          · exact Or.inr ⟨hp, hcond⟩
      · rw [if_neg hc]
        simp only [List.mem_cons, ih]
        constructor
        · rintro ⟨hp, hcond⟩
          exact ⟨Or.inr hp, hcond⟩
        · rintro ⟨rfl | hp, hcond⟩
          · exact absurd hcond hc
          · exact ⟨hp, hcond⟩

/-- C8: a record is in a plain spec's filtered subset iff its Title
case-insensitively contains the term (the lowered term occurs at some
offset of the lowered title), in a compound spec's subset iff the lowered
title contains at least one non-empty trimmed sub-term, and a compound
spec with zero non-empty sub-terms after trimming yields the empty subset
rather than an error. -/
theorem filter_membership (papers : List Dict) (kw ckw : String) (p : Dict) :
    (p ∈ filter_papers_by_keyword papers kw
      ↔ p ∈ papers ∧ ∃ i, (pyLower kw.data).isPrefixOf
          ((pyLower (dictGet p "Title" "").data).drop i) = true)
    ∧ (p ∈ filter_papers_by_compound_keyword papers ckw
      ↔ p ∈ papers ∧ ∃ sub ∈ sub_keywords ckw,
          ∃ i, (pyLower sub).isPrefixOf
            ((pyLower (dictGet p "Title" "").data).drop i) = true)
    ∧ (sub_keywords ckw = []
        → filter_papers_by_compound_keyword papers ckw = []) := by
  refine ⟨?_, ?_, ?_⟩
  · rw [mem_filter_papers_by_keyword]
    rw [keywordCond, pyContains_iff]
  · rw [mem_filter_papers_by_compound_keyword, compoundCond, List.any_eq_true]
    constructor
    · rintro ⟨hp, sub, hsub, hocc⟩
      exact ⟨hp, sub, hsub, (pyContains_iff _ _).mp hocc⟩
    · rintro ⟨hp, sub, hsub, hocc⟩
      exact ⟨hp, sub, hsub, (pyContains_iff _ _).mpr hocc⟩
  · intro hs
    rw [filter_papers_by_compound_keyword.eq_def, if_pos hs]


theorem filter_membership_witness :
    filter_papers_by_compound_keyword [examplePaper] " + " = [] :=
  (filter_membership [examplePaper] "enzyme" " + " examplePaper).2.2 (by decide)

theorem getD_append_len (l l' : Store) (d : Dict) :
    (l ++ l').getD l.length d = l'.getD 0 d := by
  rw [List.getD_eq_getElem?_getD, List.getElem?_append_right (Nat.le_refl _),
    Nat.sub_self, ← List.getD_eq_getElem?_getD]

/-- Frame property of the shared store-level filtering loop, generalised
over an already-appended extension `ext`: the loop only appends to the
store, every returned reference is fresh, and each one holds a copy of a
matching input record's dictionary. -/
theorem filterStLoop_frame (pred : Dict → Bool) :
    ∀ (papers : List Nat) (st0 ext : Store),
      (∀ r ∈ papers, r < st0.length) →
      ∃ ext2,
        (filterStLoop pred (st0 ++ ext) papers).1 = st0 ++ (ext ++ ext2)
        ∧ ∀ r' ∈ (filterStLoop pred (st0 ++ ext) papers).2,
            st0.length + ext.length ≤ r'
            ∧ ∃ r0 ∈ papers, pred (st0.getD r0 []) = true
                ∧ (filterStLoop pred (st0 ++ ext) papers).1.getD r' []
                    = st0.getD r0 [] := by
  intro papers
  induction papers with
  | nil =>
    intro st0 ext _
    exact ⟨[], by simp [filterStLoop], by simp [filterStLoop]⟩
  | cons r rest ih =>
    intro st0 ext hvalid
    have hrlt : r < st0.length := hvalid r (List.mem_cons_self r rest)
    have hread : (st0 ++ ext).getD r [] = st0.getD r [] :=
      List.getD_append st0 ext [] r hrlt
    rw [filterStLoop]
    by_cases hp : pred ((st0 ++ ext).getD r []) = true
    · rw [if_pos hp]
      have hassoc : (st0 ++ ext) ++ [dictCopy ((st0 ++ ext).getD r [])]
          = st0 ++ (ext ++ [dictCopy ((st0 ++ ext).getD r [])]) :=
        List.append_assoc st0 ext _
      rw [hassoc]
      obtain ⟨ext2, hst, hrefs⟩ :=
        ih st0 (ext ++ [dictCopy ((st0 ++ ext).getD r [])])
          (fun x hx => hvalid x (List.mem_cons_of_mem r hx))
      refine ⟨[dictCopy ((st0 ++ ext).getD r [])] ++ ext2, ?_, ?_⟩
      · rw [hst, List.append_assoc]
      · intro r' hr'
        rcases List.mem_cons.mp hr' with hhd | htl
        · subst hhd
          refine ⟨by simp [List.length_append], r, List.mem_cons_self r rest,
            by rw [← hread]; exact hp, ?_⟩
          rw [hst, ← List.append_assoc, ← List.append_assoc,
            List.append_assoc (st0 ++ ext), getD_append_len]
          simp only [dictCopy, List.singleton_append, List.getD_cons_zero]
          exact hread
        · obtain ⟨hge, r0, hr0, hpred, hcontent⟩ := hrefs r' htl
          refine ⟨?_, r0, List.mem_cons_of_mem r hr0, hpred, hcontent⟩
          simp only [List.length_append, List.length_cons, List.length_nil] at hge
          omega
    · rw [if_neg hp]
      obtain ⟨ext2, hst, hrefs⟩ :=
        ih st0 ext (fun x hx => hvalid x (List.mem_cons_of_mem r hx))
      refine ⟨ext2, hst, ?_⟩
      intro r' hr'
      obtain ⟨hge, r0, hr0, hpred, hcontent⟩ := hrefs r' hr'
      exact ⟨hge, r0, List.mem_cons_of_mem r hr0, hpred, hcontent⟩

/-- Specialisation of the frame property to the loop's initial state. -/
theorem filterStLoop_no_mutation (pred : Dict → Bool) (st : Store)
    (papers : List Nat) (hvalid : ∀ r ∈ papers, r < st.length) :
    (filterStLoop pred st papers).1.take st.length = st
    ∧ ∀ r' ∈ (filterStLoop pred st papers).2,
        st.length ≤ r'
        ∧ ∃ r0 ∈ papers, pred (st.getD r0 []) = true
            ∧ (filterStLoop pred st papers).1.getD r' [] = st.getD r0 [] := by
  obtain ⟨ext2, hst, hrefs⟩ := filterStLoop_frame pred papers st [] hvalid
  simp only [List.append_nil, List.nil_append, List.length_nil,
    Nat.add_zero] at hst hrefs
  constructor
  · rw [hst, List.take_left]
  · exact hrefs

/-- C10: neither filter function mutates the existing paper dictionaries:
the output store still holds every original dictionary unchanged at its
original index, every returned reference is freshly allocated (at or past
the original store length, so it aliases no input object), and each
returned reference holds a copy of a matching input record's entries. -/
theorem filters_no_mutation (st : Store) (papers : List Nat) (kw ckw : String)
    (hvalid : ∀ r ∈ papers, r < st.length) :
    ((filter_papers_by_keyword_store st papers kw).1.take st.length = st
      ∧ ∀ r' ∈ (filter_papers_by_keyword_store st papers kw).2,
          st.length ≤ r'
          ∧ ∃ r0 ∈ papers, keywordCond kw (st.getD r0 []) = true
              ∧ (filter_papers_by_keyword_store st papers kw).1.getD r' []
                  = st.getD r0 [])
    ∧ ((filter_papers_by_compound_keyword_store st papers ckw).1.take st.length
          = st
      ∧ ∀ r' ∈ (filter_papers_by_compound_keyword_store st papers ckw).2,
          st.length ≤ r'
          ∧ ∃ r0 ∈ papers, compoundCond ckw (st.getD r0 []) = true
              ∧ (filter_papers_by_compound_keyword_store st papers ckw).1.getD r' []
                  = st.getD r0 []) := by
  constructor
  · rw [filter_papers_by_keyword_store]
    exact filterStLoop_no_mutation (keywordCond kw) st papers hvalid
  · rw [filter_papers_by_compound_keyword_store]
    by_cases hs : sub_keywords ckw = []
    · rw [if_pos hs]
      exact ⟨List.take_length st, by intro r' hr'; simp at hr'⟩
    · rw [if_neg hs]
      exact filterStLoop_no_mutation (compoundCond ckw) st papers hvalid


theorem filters_no_mutation_witness :
    (filter_papers_by_keyword_store exampleStore [0, 1] "alpha").1.take 2
      = exampleStore :=
  (filters_no_mutation exampleStore [0, 1] "alpha" "alpha+beta"
    (by decide)).1.1
